import Mathlib

/-!
Shallow embedding of the groupcache core: the `lru` bounded cache, the
`consistenthash` ring, and the `singleflight` request-coalescing group,
with theorems checking the specification's claims against the code.
-/

set_option maxHeartbeats 1000000

namespace lru

/-- The `entry` struct stored in the doubly linked list: a key/value pair.
Keys are modelled as `String` and values as `Int` (the Go code uses
`interface{}` for both; the claims only need one comparable key type and one
value type). -/
structure Entry where
  key : String
  value : Int
deriving DecidableEq, Repr

/-- The `Cache` struct.  The Go code keeps a doubly linked list `ll` of
entries (front = most recently used) and a map `cache` from key to the list
node holding that key.  The list is modelled as `ll : List Entry` with the
head as front; the map is modelled by its key set `cacheKeys` (the map's
values are pointers to list nodes, so a node is recovered from `ll` by its
key — the map/list agreement is itself one of the invariants proved below).
`initialized = false` models the zero-value / cleared state in which both
`c.cache` and `c.ll` are `nil`. -/
structure Cache where
  maxEntries : Int
  hasOnEvicted : Bool
  initialized : Bool
  ll : List Entry
  cacheKeys : List String
deriving DecidableEq, Repr

/-- `New(maxEntries)`: fresh cache with initialized (empty) list and map.
The `OnEvicted` callback is a field the caller may set; it is threaded here
as the `onEvicted` argument. -/
def Cache.new (maxEntries : Int) (onEvicted : Bool) : Cache :=
  { maxEntries := maxEntries
    hasOnEvicted := onEvicted
    initialized := true
    ll := []
    cacheKeys := [] }

/-- `removeElement(e)`: unlink the node from the list, delete its key from
the map, and invoke `OnEvicted(kv.key, kv.value)` when configured.  The
second component collects the callback invocations. -/
def Cache.removeElement (c : Cache) (e : Entry) : Cache × List (String × Int) :=
  ({ c with
      ll := c.ll.eraseP (fun x => x.key == e.key)
      cacheKeys := c.cacheKeys.erase e.key },
   if c.hasOnEvicted then [(e.key, e.value)] else [])

/-- `RemoveOldest()`: no-op on a nil map; otherwise remove the back element
of the list (the least recently used entry) when the list is non-empty. -/
def Cache.removeOldest (c : Cache) : Cache × List (String × Int) :=
  if c.initialized then
    match c.ll.getLast? with
    | some e => c.removeElement e
    | none => (c, [])
  else (c, [])

/-- `Add(key, value)`: lazily initialize `cache`/`ll`; on a hit move the
node to the front and overwrite its value; on a miss push a fresh entry to
the front and record the key in the map, then evict the oldest entry when
`MaxEntries != 0 && ll.Len() > MaxEntries`. -/
def Cache.add (c : Cache) (k : String) (v : Int) : Cache × List (String × Int) :=
  let c := if c.initialized then c
           else { c with initialized := true, ll := [], cacheKeys := [] }
  if c.cacheKeys.contains k then
    ({ c with ll := ⟨k, v⟩ :: c.ll.eraseP (fun x => x.key == k) }, [])
  else
    let c := { c with ll := ⟨k, v⟩ :: c.ll, cacheKeys := k :: c.cacheKeys }
    if c.maxEntries ≠ 0 ∧ c.maxEntries < (c.ll.length : Int) then
      c.removeOldest
    else (c, [])

/-- `Get(key)`: `(nil, false)` on a nil map; on a hit move the node to the
front and return its value.  The inner `none` branch is unreachable when the
map and the list agree (the invariant proved below); it mirrors following
the map's node pointer into the list. -/
def Cache.get (c : Cache) (k : String) : Cache × Option Int :=
  if c.initialized then
    if c.cacheKeys.contains k then
      match c.ll.find? (fun x => x.key == k) with
      | some e => ({ c with ll := e :: c.ll.eraseP (fun x => x.key == k) }, some e.value)
      | none => (c, none)
    else (c, none)
  else (c, none)

/-- `Remove(key)`: no-op on a nil map; on a hit remove the node. -/
def Cache.remove (c : Cache) (k : String) : Cache × List (String × Int) :=
  if c.initialized then
    if c.cacheKeys.contains k then
      match c.ll.find? (fun x => x.key == k) with
      | some e => c.removeElement e
      | none => (c, [])
    else (c, [])
  else (c, [])

/-- `Len()`: 0 on a nil map, else the list length. -/
def Cache.len (c : Cache) : Nat :=
  if c.initialized then c.ll.length else 0

/-- `Clear()`: when `OnEvicted` is configured, invoke it once per entry
reachable from the map (the Go code ranges over the map's node pointers;
here each key in the map is resolved to its list node), then set both the
list and the map to nil. -/
def Cache.clear (c : Cache) : Cache × List (String × Int) :=
  ({ c with initialized := false, ll := [], cacheKeys := [] },
   if c.hasOnEvicted then
     c.cacheKeys.filterMap (fun k =>
       (c.ll.find? (fun x => x.key == k)).map (fun e => (e.key, e.value)))
   else [])

/-- Well-formedness: the map's key set and the list's key sequence agree,
the list's keys are duplicate-free, and so are the map's keys. -/
def Wf (c : Cache) : Prop :=
  (∀ k, k ∈ c.cacheKeys ↔ k ∈ c.ll.map Entry.key) ∧
  (c.ll.map Entry.key).Nodup ∧ c.cacheKeys.Nodup

/-- The capacity bound: when `MaxEntries > 0` the list never outgrows it. -/
def Bounded (c : Cache) : Prop :=
  0 < c.maxEntries → (c.ll.length : Int) ≤ c.maxEntries

/-- Scenario states from the spec: capacity 2, callback configured. -/
def scenC : Cache × List (String × Int) :=
  (((Cache.new 2 true).add "a" 1).1.add "b" 2).1.add "c" 3

/-- Fourth step of the scenario: after `Get(b)`, add d. -/
def scenD : Cache × List (String × Int) :=
  ((scenC.1.get "b").1).add "d" 4

/-- Concrete two-entry cache at capacity (MaxEntries 2), callback set. -/
def exCache : Cache := ⟨2, true, true, [⟨"b", 2⟩, ⟨"a", 1⟩], ["b", "a"]⟩

/-- Concrete zero-value (uninitialized) cache. -/
def exUninit : Cache := ⟨5, false, false, [], []⟩

end lru

namespace consistenthash

/-- Go's `sort.Search(n, f)` loop: binary search for the boundary.
`i, j := 0, n; for i < j { h := (i+j)/2; if !f(h) { i = h+1 } else { j = h } }; return i`. -/
def searchGo (f : Nat → Bool) (i j : Nat) : Nat :=
  if h : i < j then
    let m := (i + j) / 2
    if f m then searchGo f i m else searchGo f (m + 1) j
  else i
termination_by j - i
decreasing_by
  all_goals simp_wf
  all_goals omega

/-- `sort.Search(n, f)`. -/
def sortSearch (n : Nat) (f : Nat → Bool) : Nat := searchGo f 0 n

/-- The `Map` struct of package `consistenthash`: a pluggable hash, the
virtual-replica count, the sorted list of hash points `keys`, and the map
from hash point to node name.  The Go hash returns `uint32`, converted to
`int`; points are modelled as `Nat`.  The Go map (only ever read at a single
point and written pointwise) is modelled as a function `Nat → Option String`
(`none` = key absent; a Go read of a missing key yields `""`). -/
structure Map where
  hash : String → Nat
  replicas : Nat
  keys : List Nat
  hashMap : Nat → Option String

/-- `New(replicas, fn)` with the hash already supplied (the CRC32 default is
outside this model; the ring's behaviour is uniform in the hash). -/
def Map.new (replicas : Nat) (fn : String → Nat) : Map :=
  { hash := fn, replicas := replicas, keys := [], hashMap := fun _ => none }

/-- `IsEmpty()`: `len(m.keys) == 0`. -/
def Map.isEmpty (m : Map) : Bool := m.keys.length == 0

/-- Body of the inner loop of `Add`: one virtual point for node `key` —
append `hash(itoa(i) + key)` to the point list and set
`hashMap[point] = key`. -/
def addPoint (key : String) (m : Map) (i : Nat) : Map :=
  let h := m.hash (toString i ++ key)
  { m with keys := m.keys ++ [h], hashMap := Function.update m.hashMap h (some key) }

/-- Body of the outer loop of `Add`: all `replicas` virtual points for one
node name. -/
def addNode (m : Map) (key : String) : Map :=
  (List.range m.replicas).foldl (addPoint key) m

/-- `Add(keys...)`: for each node name, for `i in [0, replicas)`, append
`hash(itoa(i) + key)` to the point list and set `hashMap[point] = key`;
afterwards sort the point list ascending. -/
def Map.add (m : Map) (ks : List String) : Map :=
  let m := ks.foldl addNode m
  { m with keys := m.keys.mergeSort (· ≤ ·) }

/-- `Get(key)`: `""` on an empty ring; otherwise binary-search for the first
point `≥ hash(key)`, wrapping to index 0, and look the point up in the map
(a missing map key yields Go's zero value `""`). -/
def Map.get (m : Map) (key : String) : String :=
  if m.keys.length = 0 then ""
  else
    let h := m.hash key
    let idx := sortSearch m.keys.length (fun i => decide (h ≤ m.keys.getD i 0))
    let idx := if idx = m.keys.length then 0 else idx
    (m.hashMap (m.keys.getD idx 0)).getD ""

end consistenthash

namespace consistenthash

/-- The virtual points one node name generates: `hash(itoa(i) + id)` for
`i in [0, replicas)`. -/
def vpoints (hash : String → Nat) (r : Nat) (id : String) : List Nat :=
  (List.range r).map (fun i => hash (toString i ++ id))

/-- All points generated by one `Add(ks...)` call, in insertion order. -/
def allPoints (hash : String → Nat) (r : Nat) (ks : List String) : List Nat :=
  ks.flatMap (fun id => vpoints hash r id)

/-- Ring well-formedness: the `hashMap`'s key set equals the element set of
the point list `keys`. -/
def MapInv (m : Map) : Prop :=
  ∀ h, (m.hashMap h).isSome ↔ h ∈ m.keys

/-- A small concrete ring used by witnesses: two points 3 and 10. -/
def exRing : Map :=
  ⟨fun s => s.length, 1, [3, 10],
   fun n => if n = 3 then some "A" else if n = 10 then some "B" else none⟩

end consistenthash

namespace singleflight

/-- The `call` struct: an in-flight or finished execution.  `wg.Wait()`
returning is modelled by the `done` flag; `val`/`err` are the published
result (values are `Nat`, errors `Option String`; `none` = nil error). -/
structure CallRec where
  done : Bool
  val : Nat
  err : Option String
deriving DecidableEq, Repr

/-- Program counter of one caller running `Group.Do(key, fn)`, cut at the
points where the Go code releases the mutex or blocks:
* `start`: before the locked section at the top of `Do`;
* `waiter cid`: found `g.m[key]` occupied by call `cid`, is in `c.wg.Wait()`;
* `runner cid`: installed fresh call `cid` in `g.m[key]`, about to run `fn`;
* `cleanup cid v e`: `fn` returned `(v, e)`, stored it in the call and did
  `wg.Done()`; about to `delete(g.m, key)` and return;
* `done isRunner cid v e`: `Do` returned `(v, e)`; the flag records whether
  this caller was the one that executed `fn`, `cid` which call it joined. -/
inductive PC where
  | start
  | waiter (cid : Nat)
  | runner (cid : Nat)
  | cleanup (cid : Nat) (v : Nat) (e : Option String)
  | done (isRunner : Bool) (cid : Nat) (v : Nat) (e : Option String)
deriving DecidableEq, Repr

/-- One caller: its key, the result its `fn` would produce when executed
(`fn` is modelled by its output, as `Do` only observes that), and where it
is in `Do`. -/
structure Thread where
  key : String
  fnv : Nat
  fne : Option String
  pc : PC
deriving DecidableEq, Repr

/-- Global state: the group map `g.m` (key to call id), the heap of call
records (ids are allocation-ordered; records are never deallocated, so
results stay observable), the next fresh id, a per-call count of how many
times `fn` has been executed for that call, and the callers. -/
structure GState where
  m : String → Option Nat
  calls : Nat → Option CallRec
  nextId : Nat
  execs : Nat → Nat
  threads : List Thread

/-- Initial state for a given set of callers: empty map (`g.m == nil`
behaves as empty — `Do` lazily allocates it), no calls, everyone at
`start`. -/
def initState (ts : List Thread) : GState :=
  { m := fun _ => none
    calls := fun _ => none
    nextId := 0
    execs := fun _ => 0
    threads := ts }

/-- Interleaving semantics of `Do`: each constructor is one atomic section
of one caller, delimited by the mutex and the wait-group. -/
inductive Step : GState → GState → Prop where
  /-- Locked prologue, key occupied: `c, ok := g.m[key]; ok` — unlock and
  join call `cid` as a waiter. -/
  | join (s : GState) (i : Nat) (t : Thread) (cid : Nat) :
      s.threads.get? i = some t → t.pc = .start → s.m t.key = some cid →
      Step s { s with threads := s.threads.set i { t with pc := .waiter cid } }
  /-- Locked prologue, key free: allocate a fresh `call`, `wg.Add(1)`,
  install it in `g.m[key]`, unlock; this caller becomes the runner. -/
  | create (s : GState) (i : Nat) (t : Thread) :
      s.threads.get? i = some t → t.pc = .start → s.m t.key = none →
      Step s { s with
        m := Function.update s.m t.key (some s.nextId)
        calls := Function.update s.calls s.nextId (some ⟨false, 0, none⟩)
        nextId := s.nextId + 1
        threads := s.threads.set i { t with pc := .runner s.nextId } }
  /-- `c.val, c.err = fn(); c.wg.Done()` — the one execution of `fn`,
  publishing the result. -/
  | exec (s : GState) (i : Nat) (t : Thread) (cid : Nat) :
      s.threads.get? i = some t → t.pc = .runner cid →
      Step s { s with
        calls := Function.update s.calls cid (some ⟨true, t.fnv, t.fne⟩)
        execs := Function.update s.execs cid (s.execs cid + 1)
        threads := s.threads.set i { t with pc := .cleanup cid t.fnv t.fne } }
  /-- `g.mu.Lock(); delete(g.m, key); g.mu.Unlock(); return c.val, c.err`. -/
  | finish (s : GState) (i : Nat) (t : Thread) (cid : Nat) (v : Nat) (e : Option String) :
      s.threads.get? i = some t → t.pc = .cleanup cid v e →
      Step s { s with
        m := Function.update s.m t.key none
        threads := s.threads.set i { t with pc := .done true cid v e } }
  /-- `c.wg.Wait()` returns (the runner did `wg.Done()`), and the waiter
  reads `c.val, c.err`. -/
  | wait (s : GState) (i : Nat) (t : Thread) (cid : Nat) (rec : CallRec) :
      s.threads.get? i = some t → t.pc = .waiter cid →
      s.calls cid = some rec → rec.done = true →
      Step s { s with
        threads := s.threads.set i { t with pc := .done false cid rec.val rec.err } }

/-- States reachable by interleaving any number of callers from an initial
state. -/
inductive Reachable : GState → Prop where
  | init (ts : List Thread) : (∀ t ∈ ts, t.pc = .start) → Reachable (initState ts)
  | step (s s' : GState) : Reachable s → Step s s' → Reachable s'

/-- How many times `fn` has run for a call in the given record state: once
as soon as the record is published (`done`), never before. -/
def execsOf : Option CallRec → Nat
  | none => 0
  | some rec => if rec.done then 1 else 0

/-- Per-thread invariant, relating a caller's program counter to the call
heap: a waiter's call exists; a runner's call exists and is not yet done; a
caller past `fn` (cleanup, or done as the runner) carries exactly its own
`fn` result, which is also the published record. -/
def TInv (calls : Nat → Option CallRec) (t : Thread) : Prop :=
  match t.pc with
  | .start => True
  | .waiter cid => (calls cid).isSome
  | .runner cid => ∃ rec, calls cid = some rec ∧ rec.done = false
  | .cleanup cid v e => calls cid = some ⟨true, v, e⟩ ∧ v = t.fnv ∧ e = t.fne
  | .done r cid v e => calls cid = some ⟨true, v, e⟩ ∧ (r = true → v = t.fnv ∧ e = t.fne)

/-- Global invariant of the coalescing group. -/
structure Inv (s : GState) : Prop where
  fresh : ∀ cid, s.nextId ≤ cid → s.calls cid = none
  mapOk : ∀ k cid, s.m k = some cid → (s.calls cid).isSome
  pcOk : ∀ i t, s.threads.get? i = some t → TInv s.calls t
  execsOk : ∀ cid, s.execs cid = execsOf (s.calls cid)
  runnerUniq : ∀ i j t u cid, i ≠ j → s.threads.get? i = some t →
    s.threads.get? j = some u → t.pc = .runner cid → u.pc = .runner cid → False

/-- A concrete two-caller interleaving used to exercise the theorems: both
callers use key `"k"`; caller 0 computes `(7, nil)`, caller 1 would compute
`(9, "boom")` but never runs. -/
def exT0 : Thread := ⟨"k", 7, none, .start⟩

/-- Second caller of the concrete interleaving. -/
def exT1 : Thread := ⟨"k", 9, some "boom", .start⟩

/-- Initial state of the concrete interleaving. -/
def exS0 : GState := initState [exT0, exT1]

/-- Caller 0 installs call 0 and becomes its runner. -/
def exS1 : GState :=
  { exS0 with
    m := Function.update exS0.m exT0.key (some exS0.nextId)
    calls := Function.update exS0.calls exS0.nextId (some ⟨false, 0, none⟩)
    nextId := exS0.nextId + 1
    threads := exS0.threads.set 0 { exT0 with pc := .runner exS0.nextId } }

/-- Caller 1 finds call 0 in the map and joins as a waiter. -/
def exS2 : GState :=
  { exS1 with threads := exS1.threads.set 1 { exT1 with pc := .waiter 0 } }

/-- Caller 0 runs `fn`, publishing `(7, nil)` on call 0. -/
def exS3 : GState :=
  { exS2 with
    calls := Function.update exS2.calls 0 (some ⟨true, 7, none⟩)
    execs := Function.update exS2.execs 0 (exS2.execs 0 + 1)
    threads := exS2.threads.set 0
      { exT0 with pc := .cleanup 0 exT0.fnv exT0.fne } }

/-- Caller 1 wakes and reads the published result. -/
def exS4 : GState :=
  { exS3 with threads := exS3.threads.set 1 { exT1 with pc := .done false 0 7 none } }

/-- Caller 0 deletes the map entry and returns. -/
def exS5 : GState :=
  { exS4 with
    m := Function.update exS4.m exT0.key none
    threads := exS4.threads.set 0 { exT0 with pc := .done true 0 7 none } }

end singleflight

namespace consistenthash

theorem searchGo_eq (f : Nat → Bool) (i j : Nat) :
    searchGo f i j = if _ : i < j then
      (if f ((i + j) / 2) then searchGo f i ((i + j) / 2)
       else searchGo f ((i + j) / 2 + 1) j)
    else i := by
  rw [searchGo]

end consistenthash
namespace consistenthash

theorem searchGo_spec (f : Nat → Bool) (i j : Nat) :
    i ≤ j → (∀ a b, i ≤ a → a ≤ b → b < j → f a = true → f b = true) →
    i ≤ searchGo f i j ∧ searchGo f i j ≤ j ∧
    (∀ k, i ≤ k → k < searchGo f i j → f k = false) ∧
    (searchGo f i j < j → f (searchGo f i j) = true) := by
  induction i, j using searchGo.induct f with
  | case1 i j hij m hfm ih =>
    intro _ hmono
    have hm : (i + j) / 2 = m := rfl
    have hmj : m ≤ j := by omega
    have him : i ≤ m := by omega
    rw [searchGo_eq, dif_pos hij, hm, if_pos hfm]
    obtain ⟨h1, h2, h3, h4⟩ := ih him
      (fun a b ha hab hb hfa => hmono a b ha hab (lt_of_lt_of_le hb hmj) hfa)
    refine ⟨h1, h2.trans hmj, h3, fun hr => ?_⟩
    rcases lt_or_eq_of_le (h2 : searchGo f i m ≤ m) with hlt | heq
    · exact h4 hlt
    · rw [heq]; exact hfm
  | case2 i j hij m hfm ih =>
    intro _ hmono
    have hm : (i + j) / 2 = m := rfl
    have hmj : m < j := by omega
    have him : i ≤ m := by omega
    rw [searchGo_eq, dif_pos hij, hm, if_neg hfm]
    obtain ⟨h1, h2, h3, h4⟩ := ih (by omega)
      (fun a b ha hab hb hfa => hmono a b (by omega) hab hb hfa)
    refine ⟨by omega, h2, fun k hk hk2 => ?_, h4⟩
    rcases Nat.lt_or_ge k (m + 1) with hkm | hkm
    · by_contra hcon
      have hfk : f k = true := by revert hcon; cases f k <;> simp
      exact absurd (hmono k m hk (by omega) hmj hfk) (by simp [hfm])
    · exact h3 k hkm hk2
  | case3 i j hij =>
    intro hij2 _
    rw [searchGo_eq, dif_neg hij]
    exact ⟨le_refl i, hij2, fun k hk hk2 => absurd (lt_of_le_of_lt hk hk2) (lt_irrefl i),
      fun h => absurd h hij⟩

end consistenthash
namespace consistenthash

theorem find?_eq_of_first (l : List Nat) (p : Nat → Bool) :
    ∀ (r : Nat) (hr : r < l.length), p (l.get ⟨r, hr⟩) = true →
    (∀ k (hk : k < r), p (l.get ⟨k, lt_trans hk hr⟩) = false) →
    l.find? p = some (l.get ⟨r, hr⟩) := by
  induction l with
  | nil => intro r hr; simp at hr
  | cons a tl ih =>
    intro r hr hfr hlow
    cases r with
    | zero => simpa using List.find?_cons_of_pos tl hfr
    | succ r' =>
      have ha : p a = false := by
        have := hlow 0 (Nat.succ_pos r')
        simpa using this
      have hget : (a :: tl).get ⟨r' + 1, hr⟩ = tl.get ⟨r', by simpa using hr⟩ := rfl
      rw [hget, List.find?_cons_of_neg _ (by simp [ha])]
      exact ih r' _ (by simpa [hget] using hfr)
        (fun k hk => by simpa using hlow (k + 1) (by omega))

/-- C8: looking up any key on an empty ring returns the empty string, and a
fresh ring is empty; the `Get` result type carries no error. -/
theorem spec_C8 (m : Map) (key : String) (r : Nat) (fn : String → Nat)
    (h : m.keys = []) :
    m.get key = "" ∧ (Map.new r fn).get key = "" ∧ (Map.new r fn).isEmpty = true := by
  refine ⟨?_, ?_, rfl⟩
  · simp [Map.get, h]
  · simp [Map.get, Map.new]

theorem spec_C8_witness :
    (Map.new 3 (fun s => s.length)).get "anything" = "" ∧
    (Map.new 3 (fun s => s.length)).get "anything" = "" ∧
    (Map.new 3 (fun s => s.length)).isEmpty = true :=
  spec_C8 (Map.new 3 (fun s => s.length)) "anything" 3 (fun s => s.length) rfl

end consistenthash
namespace consistenthash

/-- C2: lookup on a non-empty sorted ring returns the node of the smallest
point `≥ hash(key)`, wrapping to the smallest point overall when no point is
`≥ hash(key)`. -/
theorem spec_C2 (m : Map) (key : String) (hne : m.keys ≠ [])
    (hs : m.keys.Sorted (· ≤ ·)) :
    (∀ p, m.keys.find? (fun q => decide (m.hash key ≤ q)) = some p →
       m.hash key ≤ p ∧ p ∈ m.keys ∧ (∀ q ∈ m.keys, m.hash key ≤ q → p ≤ q) ∧
       m.get key = (m.hashMap p).getD "") ∧
    (m.keys.find? (fun q => decide (m.hash key ≤ q)) = none →
       (∀ q ∈ m.keys, m.keys.head hne ≤ q) ∧
       m.get key = (m.hashMap (m.keys.head hne)).getD "") := by
  set h := m.hash key with hh
  set n := m.keys.length with hn
  have hnpos : 0 < n := List.length_pos.mpr hne
  set f : Nat → Bool := fun i => decide (h ≤ m.keys.getD i 0) with hf
  have hgetD : ∀ (k : Nat) (hk : k < n), m.keys.getD k 0 = m.keys.get ⟨k, hk⟩ :=
    fun k hk => List.getD_eq_get m.keys 0 hk
  have hmono : ∀ a b, 0 ≤ a → a ≤ b → b < n → f a = true → f b = true := by
    intro a b _ hab hb hfa
    have ha : a < n := lt_of_le_of_lt hab hb
    have hle : m.keys.get ⟨a, ha⟩ ≤ m.keys.get ⟨b, hb⟩ :=
      hs.rel_get_of_le (by exact hab)
    simp only [hf, hgetD a ha, hgetD b hb, decide_eq_true_eq] at hfa ⊢
    omega
  obtain ⟨h1, h2, h3, h4⟩ := searchGo_spec f 0 n (Nat.zero_le n) hmono
  set r := searchGo f 0 n with hr
  have hget_eq : m.get key =
      (m.hashMap (m.keys.getD (if r = n then 0 else r) 0)).getD "" := by
    rw [Map.get, if_neg (by omega)]
    rfl
  constructor
  · intro p hp
    have hpp : h ≤ p := by simpa using List.find?_some hp
    have hpm : p ∈ m.keys := List.mem_of_find?_eq_some hp
    have hrn : r < n := by
      rcases lt_or_eq_of_le h2 with hlt | heq
      · exact hlt
      · exfalso
        obtain ⟨⟨ip, hip⟩, hgp⟩ := List.mem_iff_get.mp hpm
        have := h3 ip (Nat.zero_le ip) (by omega)
        simp only [hf, hgetD ip hip, hgp, decide_eq_false_iff_not] at this
        exact this hpp
    have hfr : f r = true := h4 hrn
    have hfind : m.keys.find? (fun q => decide (h ≤ q)) = some (m.keys.get ⟨r, hrn⟩) := by
      apply find?_eq_of_first
      · rw [← hgetD r hrn]; exact hfr
      · intro k hk
        have := h3 k (Nat.zero_le k) hk
        rw [← hgetD k (lt_trans hk hrn)]; exact this
    have hpr : p = m.keys.get ⟨r, hrn⟩ := by
      rw [hp] at hfind; exact (Option.some_injective _ hfind).symm ▸ rfl
    refine ⟨hpp, hpm, ?_, ?_⟩
    · intro q hq hhq
      obtain ⟨⟨iq, hiq⟩, hgq⟩ := List.mem_iff_get.mp hq
      rcases Nat.lt_or_ge iq r with hlt | hge
      · exfalso
        have := h3 iq (Nat.zero_le iq) hlt
        simp only [hf, hgetD iq hiq, hgq, decide_eq_false_iff_not] at this
        exact this hhq
      · rw [hpr, ← hgq]
        exact hs.rel_get_of_le (by exact hge)
    · rw [hget_eq, if_neg (by omega), hgetD r hrn, ← hpr]
  · intro hnone
    have hall : ∀ k (hk : k < n), f k = false := by
      intro k hk
      have hmem : m.keys.get ⟨k, hk⟩ ∈ m.keys := List.get_mem _ _ _
      have := List.find?_eq_none.mp hnone _ hmem
      rw [hf]
      simp only [hgetD k hk, decide_eq_true_eq]
      simpa using this
    have hrn : r = n := by
      rcases lt_or_eq_of_le h2 with hlt | heq
      · exact absurd (h4 hlt) (by simp [hall r hlt])
      · exact heq
    have hhead : m.keys.getD 0 0 = m.keys.head hne := by
      rw [hgetD 0 hnpos]
      exact (List.get_mk_zero hnpos ▸ rfl)
    constructor
    · intro q hq
      have hcons := List.head_cons_tail m.keys hne
      rw [← hcons] at hq hs
      rcases List.mem_cons.mp hq with heq2 | hmem2
      · omega
      · exact (List.sorted_cons.mp hs).1 q hmem2
    · rw [hget_eq, if_pos hrn, hhead]

end consistenthash
namespace consistenthash

theorem addNode_fold (key : String) (is : List Nat) : ∀ (m : Map),
    (is.foldl (addPoint key) m).hash = m.hash ∧
    (is.foldl (addPoint key) m).replicas = m.replicas ∧
    (is.foldl (addPoint key) m).keys
      = m.keys ++ is.map (fun i => m.hash (toString i ++ key)) ∧
    ∀ h, (is.foldl (addPoint key) m).hashMap h =
      if h ∈ is.map (fun i => m.hash (toString i ++ key)) then some key
      else m.hashMap h := by
  induction is with
  | nil => intro m; simp
  | cons i is ih =>
    intro m
    simp only [List.foldl_cons, List.map_cons]
    obtain ⟨e1, e2, e3, e4⟩ := ih (addPoint key m i)
    have hash1 : (addPoint key m i).hash = m.hash := rfl
    have repl1 : (addPoint key m i).replicas = m.replicas := rfl
    have keys1 : (addPoint key m i).keys = m.keys ++ [m.hash (toString i ++ key)] := rfl
    refine ⟨e1.trans hash1, e2.trans repl1, ?_, ?_⟩
    · rw [e3, keys1, hash1]
      simp
    · intro h
      rw [e4 h, hash1]
      have hm1 : (addPoint key m i).hashMap h =
          if h = m.hash (toString i ++ key) then some key else m.hashMap h := by
        simp [addPoint, Function.update_apply]
      by_cases hmem : h ∈ is.map (fun i => m.hash (toString i ++ key))
      · rw [if_pos hmem, if_pos (List.mem_cons_of_mem _ hmem)]
      · rw [if_neg hmem, hm1]
        by_cases heq : h = m.hash (toString i ++ key)
        · rw [if_pos heq, if_pos (by simp [heq])]
        · rw [if_neg heq, if_neg (by simp [heq, hmem])]

theorem addNode_spec (m : Map) (key : String) :
    (addNode m key).hash = m.hash ∧
    (addNode m key).replicas = m.replicas ∧
    (addNode m key).keys = m.keys ++ vpoints m.hash m.replicas key ∧
    ∀ h, (addNode m key).hashMap h =
      if h ∈ vpoints m.hash m.replicas key then some key else m.hashMap h := by
  have := addNode_fold key (List.range m.replicas) m
  simpa [addNode, vpoints] using this

end consistenthash
namespace consistenthash

theorem mem_allPoints (hash : String → Nat) (r : Nat) (ks : List String) (h : Nat) :
    h ∈ allPoints hash r ks ↔ ∃ id ∈ ks, h ∈ vpoints hash r id := by
  simp [allPoints]

theorem add_fold (ks : List String) : ∀ (m : Map),
    (ks.foldl addNode m).hash = m.hash ∧
    (ks.foldl addNode m).replicas = m.replicas ∧
    (ks.foldl addNode m).keys = m.keys ++ allPoints m.hash m.replicas ks ∧
    (∀ h, h ∉ allPoints m.hash m.replicas ks →
       (ks.foldl addNode m).hashMap h = m.hashMap h) ∧
    (∀ h, h ∈ allPoints m.hash m.replicas ks →
       ∃ id ∈ ks, h ∈ vpoints m.hash m.replicas id ∧
         (ks.foldl addNode m).hashMap h = some id) ∧
    (∀ h id, id ∈ ks → h ∈ vpoints m.hash m.replicas id →
       (∀ id2, id2 ∈ ks → h ∈ vpoints m.hash m.replicas id2 → id2 = id) →
       (ks.foldl addNode m).hashMap h = some id) := by
  induction ks with
  | nil => intro m; simp [allPoints]
  | cons id0 rest ih =>
    intro m
    simp only [List.foldl_cons]
    obtain ⟨f1, f2, f3, f4⟩ := addNode_spec m id0
    obtain ⟨e1, e2, e3, e4, e5, e6⟩ := ih (addNode m id0)
    have hashE : (addNode m id0).hash = m.hash := f1
    have replE : (addNode m id0).replicas = m.replicas := f2
    rw [hashE, replE] at e3 e4 e5 e6
    have hcons : allPoints m.hash m.replicas (id0 :: rest)
        = vpoints m.hash m.replicas id0 ++ allPoints m.hash m.replicas rest := by
      simp [allPoints]
    refine ⟨e1.trans f1, e2.trans f2, ?_, ?_, ?_, ?_⟩
    · rw [e3, f3, hcons, List.append_assoc]
    · intro h hmem
      rw [hcons] at hmem
      simp only [List.mem_append, not_or] at hmem
      rw [e4 h hmem.2, f4 h, if_neg hmem.1]
    · intro h hmem
      rw [hcons] at hmem
      rcases List.mem_append.mp hmem with h1 | h2
      · by_cases hr : h ∈ allPoints m.hash m.replicas rest
        · obtain ⟨id, hid, hv, he⟩ := e5 h hr
          exact ⟨id, List.mem_cons_of_mem _ hid, hv, he⟩
        · refine ⟨id0, List.mem_cons_self _ _, h1, ?_⟩
          rw [e4 h hr, f4 h, if_pos h1]
      · obtain ⟨id, hid, hv, he⟩ := e5 h h2
        exact ⟨id, List.mem_cons_of_mem _ hid, hv, he⟩
    · intro h id hid hv huniq
      rcases List.mem_cons.mp hid with heq | hmem
      · subst heq
        by_cases hr : h ∈ allPoints m.hash m.replicas rest
        · obtain ⟨id2, hid2, hv2⟩ := (mem_allPoints _ _ _ _).mp hr
          have hide : id2 = id := huniq id2 (List.mem_cons_of_mem _ hid2) hv2
          have hres := e6 h id2 hid2 hv2
            (fun id3 hid3 hv3 =>
              (huniq id3 (List.mem_cons_of_mem _ hid3) hv3).trans hide.symm)
          rw [hres, hide]
        · rw [e4 h hr, f4 h, if_pos hv]
      · exact e6 h id hmem hv
          (fun id3 hid3 hv3 => huniq id3 (List.mem_cons_of_mem _ hid3) hv3)

end consistenthash
namespace consistenthash

theorem mergeSort_nat_sorted (l : List Nat) : (l.mergeSort (· ≤ ·)).Sorted (· ≤ ·) := by
  have hp := List.sorted_mergeSort
    (fun (a b c : Nat) (hab : decide (a ≤ b) = true) (hbc : decide (b ≤ c) = true) => by
      simp only [decide_eq_true_eq] at *; omega)
    (fun (a b : Nat) => by simp [Nat.le_total])
    l
  exact hp.imp (fun h => by simpa using h)

theorem mergeSort_nat_mem (l : List Nat) (h : Nat) :
    h ∈ l.mergeSort (· ≤ ·) ↔ h ∈ l :=
  (List.mergeSort_perm l _).mem_iff

end consistenthash
namespace consistenthash

/-- C6 (amended): after `Add(ks...)` the point list is sorted ascending, the
map's key set equals the point list's element set, and every virtual point
of every added id is present; a virtual point maps back to its id whenever
no other added id generates the same point (a later colliding insertion
overwrites the mapping, see the counterexample). -/
theorem spec_C6 (m : Map) (ks : List String) (hinv : MapInv m) :
    MapInv (m.add ks) ∧
    (m.add ks).keys.Sorted (· ≤ ·) ∧
    (∀ id ∈ ks, ∀ i, i < m.replicas →
       m.hash (toString i ++ id) ∈ (m.add ks).keys) ∧
    (∀ id ∈ ks, ∀ i, i < m.replicas →
       (∀ id2 ∈ ks, m.hash (toString i ++ id) ∈ vpoints m.hash m.replicas id2 → id2 = id) →
       (m.add ks).hashMap (m.hash (toString i ++ id)) = some id) := by
  obtain ⟨g1, g2, g3, g4, g5, g6⟩ := add_fold ks m
  have hkeys : (m.add ks).keys = ((ks.foldl addNode m).keys).mergeSort (· ≤ ·) := rfl
  have hmap : (m.add ks).hashMap = (ks.foldl addNode m).hashMap := rfl
  have hmemkeys : ∀ h, h ∈ (m.add ks).keys ↔ h ∈ m.keys ∨ h ∈ allPoints m.hash m.replicas ks := by
    intro h
    rw [hkeys, mergeSort_nat_mem, g3, List.mem_append]
  refine ⟨?_, ?_, ?_, ?_⟩
  · intro h
    rw [hmap, hmemkeys h]
    by_cases hp : h ∈ allPoints m.hash m.replicas ks
    · obtain ⟨id, _, _, he⟩ := g5 h hp
      simp [he, hp]
    · rw [g4 h hp]
      simp [hinv h, hp]
  · rw [hkeys]; exact mergeSort_nat_sorted _
  · intro id hid i hi
    rw [hmemkeys]
    right
    rw [mem_allPoints]
    exact ⟨id, hid, by simp [vpoints]; exact ⟨i, hi, rfl⟩⟩
  · intro id hid i hi huniq
    rw [hmap]
    exact g6 _ id hid (by simp [vpoints]; exact ⟨i, hi, rfl⟩) huniq

/-- Counterexample for the literal reading of C6: with a constant hash and
one replica, adding `"a"` then `"b"` leaves point 0 mapped to `"b"`, not to
the earlier id `"a"` — a colliding later insertion overwrites the mapping. -/
theorem spec_C6_cex :
    ((Map.new 1 (fun _ => 0)).add ["a", "b"]).hashMap
        ((Map.new 1 (fun _ => 0)).hash (toString 0 ++ "a")) = some "b" ∧
    some "b" ≠ (some "a" : Option String) := by
  constructor
  · rfl
  · simp

theorem spec_C6_witness :
    MapInv ((Map.new 2 (fun s => s.length * 10)).add ["peerA", "pB"]) ∧
    ((Map.new 2 (fun s => s.length * 10)).add ["peerA", "pB"]).keys.Sorted (· ≤ ·) ∧
    (∀ id ∈ ["peerA", "pB"], ∀ i, i < (Map.new 2 (fun s => s.length * 10)).replicas →
       (Map.new 2 (fun s => s.length * 10)).hash (toString i ++ id)
         ∈ ((Map.new 2 (fun s => s.length * 10)).add ["peerA", "pB"]).keys) ∧
    (∀ id ∈ ["peerA", "pB"], ∀ i, i < (Map.new 2 (fun s => s.length * 10)).replicas →
       (∀ id2 ∈ ["peerA", "pB"],
          (Map.new 2 (fun s => s.length * 10)).hash (toString i ++ id)
            ∈ vpoints (Map.new 2 (fun s => s.length * 10)).hash
                (Map.new 2 (fun s => s.length * 10)).replicas id2 → id2 = id) →
       ((Map.new 2 (fun s => s.length * 10)).add ["peerA", "pB"]).hashMap
           ((Map.new 2 (fun s => s.length * 10)).hash (toString i ++ id)) = some id) :=
  spec_C6 (Map.new 2 (fun s => s.length * 10)) ["peerA", "pB"]
    (fun h => by simp [Map.new])

end consistenthash
namespace consistenthash

theorem spec_C2_witness :
    (∀ p, exRing.keys.find? (fun q => decide (exRing.hash "xxxxx" ≤ q)) = some p →
       exRing.hash "xxxxx" ≤ p ∧ p ∈ exRing.keys ∧
       (∀ q ∈ exRing.keys, exRing.hash "xxxxx" ≤ q → p ≤ q) ∧
       exRing.get "xxxxx" = (exRing.hashMap p).getD "") ∧
    (exRing.keys.find? (fun q => decide (exRing.hash "xxxxx" ≤ q)) = none →
       (∀ q ∈ exRing.keys, exRing.keys.head (by decide) ≤ q) ∧
       exRing.get "xxxxx" = (exRing.hashMap (exRing.keys.head (by decide))).getD "") :=
  spec_C2 exRing "xxxxx" (by decide) (by decide)

end consistenthash
namespace lru

theorem map_key_eraseP (l : List Entry) (k : String) :
    (l.eraseP (fun x => x.key == k)).map Entry.key = (l.map Entry.key).erase k := by
  induction l with
  | nil => simp
  | cons e tl ih =>
    by_cases he : e.key = k
    · simp [List.eraseP_cons, List.erase_cons, he]
    · simp only [List.eraseP_cons, List.erase_cons, List.map_cons]
      rw [if_neg (by simpa using he)]
      simp only [show (e.key == k) = false by simpa using he, cond_false, List.map_cons]
      rw [ih]

theorem find?_eraseP_of_ne (p q : Entry → Bool) (l : List Entry)
    (hpq : ∀ x, p x = true → q x = false) :
    (l.eraseP q).find? p = l.find? p := by
  induction l with
  | nil => simp
  | cons e tl ih =>
    by_cases hq : q e = true
    · rw [List.eraseP_cons_of_pos hq, List.find?_cons_of_neg _ ?hp]
      case hp =>
        intro hp
        rw [hpq e hp] at hq
        exact Bool.false_ne_true hq
    · have hq' : q e = false := by revert hq; cases q e <;> simp
      rw [List.eraseP_cons_of_neg (by simp [hq'])]
      by_cases hp : p e = true
      · rw [List.find?_cons_of_pos _ hp, List.find?_cons_of_pos _ hp]
      · have hp' : p e = false := by revert hp; cases p e <;> simp
        rw [List.find?_cons_of_neg _ (by simp [hp']), List.find?_cons_of_neg _ (by simp [hp']), ih]

theorem find?_key_of_mem (ll : List Entry) (hnd : (ll.map Entry.key).Nodup)
    (e : Entry) (he : e ∈ ll) :
    ll.find? (fun x => x.key == e.key) = some e := by
  induction ll with
  | nil => simp at he
  | cons a tl ih =>
    rcases List.mem_cons.mp he with heq | hmem
    · rw [heq, List.find?_cons_of_pos _ (by simp)]
    · have hane : a.key ≠ e.key := by
        intro hcon
        have : e.key ∈ tl.map Entry.key := List.mem_map_of_mem _ hmem
        rw [← hcon] at this
        exact (List.nodup_cons.mp (by simpa using hnd)).1 this
      rw [List.find?_cons_of_neg _ (by simp [hane])]
      exact ih (List.nodup_cons.mp (by simpa using hnd)).2 hmem

theorem exists_entry_of_mem_keys (c : Cache) (k : String) (hwf : Wf c)
    (hk : k ∈ c.cacheKeys) :
    ∃ e, e ∈ c.ll ∧ e.key = k ∧ c.ll.find? (fun x => x.key == k) = some e := by
  obtain ⟨hiff, hnd, _⟩ := hwf
  have : k ∈ c.ll.map Entry.key := (hiff k).mp hk
  obtain ⟨e, he, hek⟩ := List.mem_map.mp this
  refine ⟨e, he, hek, ?_⟩
  have := find?_key_of_mem c.ll hnd e he
  rwa [hek] at this

theorem eraseP_getLast_key (l : List Entry) (hne : l ≠ [])
    (hnd : (l.map Entry.key).Nodup) :
    l.eraseP (fun x => x.key == (l.getLast hne).key) = l.dropLast := by
  induction l with
  | nil => exact absurd rfl hne
  | cons e tl ih =>
    cases tl with
    | nil => simp
    | cons e2 tl2 =>
      have hlast : (e :: e2 :: tl2).getLast hne = (e2 :: tl2).getLast (by simp) :=
        List.getLast_cons (by simp)
      have hmem : ((e2 :: tl2).getLast (by simp)).key ∈ (e2 :: tl2).map Entry.key :=
        List.mem_map_of_mem _ (List.getLast_mem _)
      have hene : (e.key == ((e2 :: tl2).getLast (by simp)).key) = false := by
        have : e.key ∉ (e2 :: tl2).map Entry.key :=
          (List.nodup_cons.mp (by simpa using hnd)).1
        simp only [beq_eq_false_iff_ne, ne_eq]
        intro hcon
        rw [hcon] at this
        exact this hmem
      rw [hlast, List.eraseP_cons_of_neg (by simp [hene])]
      rw [ih (by simp) (List.nodup_cons.mp (by simpa using hnd)).2]
      simp [List.dropLast_cons_of_ne_nil]

end lru
namespace lru

theorem add_eq_present (c : Cache) (k : String) (v : Int)
    (hinit : c.initialized = true) (hk : k ∈ c.cacheKeys) :
    c.add k v = ({ c with ll := ⟨k, v⟩ :: c.ll.eraseP (fun x => x.key == k) }, []) := by
  simp only [Cache.add, hinit, if_true]
  rw [if_pos (by simpa using hk)]

theorem add_eq_absent (c : Cache) (k : String) (v : Int)
    (hinit : c.initialized = true) (hk : k ∉ c.cacheKeys) :
    c.add k v =
      (if c.maxEntries ≠ 0 ∧ c.maxEntries < ((c.ll.length : Int) + 1) then
        Cache.removeOldest { c with ll := ⟨k, v⟩ :: c.ll, cacheKeys := k :: c.cacheKeys }
      else ({ c with ll := ⟨k, v⟩ :: c.ll, cacheKeys := k :: c.cacheKeys }, [])) := by
  simp only [Cache.add, hinit, if_true]
  rw [if_neg (by simpa using hk)]
  simp only [List.length_cons]
  norm_num

theorem get_eq_hit (c : Cache) (k : String) (e : Entry)
    (hinit : c.initialized = true) (hk : k ∈ c.cacheKeys)
    (hfind : c.ll.find? (fun x => x.key == k) = some e) :
    c.get k = ({ c with ll := e :: c.ll.eraseP (fun x => x.key == k) }, some e.value) := by
  simp only [Cache.get, hinit, if_true]
  rw [if_pos (by simpa using hk), hfind]

end lru
namespace lru

theorem length_eraseP_key (l : List Entry) (k : String) (hmem : k ∈ l.map Entry.key) :
    (l.eraseP (fun x => x.key == k)).length + 1 = l.length := by
  obtain ⟨e, he, hek⟩ := List.mem_map.mp hmem
  exact List.length_eraseP_add_one he (by simp [hek])

theorem wf_removeElement (c : Cache) (e : Entry) (hwf : Wf c) :
    Wf (c.removeElement e).1 := by
  obtain ⟨hiff, hndl, hndk⟩ := hwf
  refine ⟨?_, ?_, ?_⟩
  · intro k'
    show k' ∈ c.cacheKeys.erase e.key ↔
      k' ∈ (c.ll.eraseP (fun x => x.key == e.key)).map Entry.key
    rw [map_key_eraseP, List.Nodup.mem_erase_iff hndk, List.Nodup.mem_erase_iff hndl,
      hiff k']
  · show ((c.ll.eraseP (fun x => x.key == e.key)).map Entry.key).Nodup
    rw [map_key_eraseP]; exact hndl.erase _
  · show (c.cacheKeys.erase e.key).Nodup
    exact hndk.erase _

theorem bounded_removeElement (c : Cache) (e : Entry) (hb : Bounded c) :
    Bounded (c.removeElement e).1 := by
  intro hpos
  have h1 : (c.ll.eraseP (fun x => x.key == e.key)).length ≤ c.ll.length :=
    List.length_eraseP_le c.ll
  have h2 := hb hpos
  show ((c.ll.eraseP (fun x => x.key == e.key)).length : Int) ≤ c.maxEntries
  have : ((c.ll.eraseP (fun x => x.key == e.key)).length : Int) ≤ (c.ll.length : Int) := by
    exact_mod_cast h1
  omega

theorem wf_removeOldest (c : Cache) (hwf : Wf c) : Wf c.removeOldest.1 := by
  rw [Cache.removeOldest]
  by_cases hinit : c.initialized
  · rw [if_pos hinit]
    cases hlast : c.ll.getLast? with
    | some e => exact wf_removeElement c e hwf
    | none => exact hwf
  · rw [if_neg hinit]; exact hwf

theorem bounded_removeOldest (c : Cache) (hb : Bounded c) : Bounded c.removeOldest.1 := by
  rw [Cache.removeOldest]
  by_cases hinit : c.initialized
  · rw [if_pos hinit]
    cases hlast : c.ll.getLast? with
    | some e => exact bounded_removeElement c e hb
    | none => exact hb
  · rw [if_neg hinit]; exact hb

end lru
namespace lru

/-- The lazily initialized cache at the top of `Add`. -/
theorem wf_initOf (c : Cache) (hwf : Wf c) :
    Wf (if c.initialized then c
        else { c with initialized := true, ll := [], cacheKeys := [] }) := by
  by_cases hinit : c.initialized
  · rwa [if_pos hinit]
  · rw [if_neg hinit]
    exact ⟨fun k => by simp, by simp, by simp⟩

theorem wf_add_present_core (c : Cache) (k : String) (v : Int) (hwf : Wf c)
    (hk : k ∈ c.cacheKeys) :
    Wf { c with ll := ⟨k, v⟩ :: c.ll.eraseP (fun x => x.key == k) } := by
  obtain ⟨hiff, hndl, hndk⟩ := hwf
  have hkm : k ∈ c.ll.map Entry.key := (hiff k).mp hk
  refine ⟨?_, ?_, hndk⟩
  · intro k'
    show k' ∈ c.cacheKeys ↔
      k' ∈ (Entry.mk k v :: c.ll.eraseP (fun x => x.key == k)).map Entry.key
    rw [List.map_cons, map_key_eraseP]
    by_cases hkk : k' = k
    · subst hkk; simp [hk]
    · simp only [List.mem_cons]
      rw [List.Nodup.mem_erase_iff hndl]
      constructor
      · intro h; exact Or.inr ⟨hkk, (hiff k').mp h⟩
      · rintro (h | ⟨_, h⟩)
        · exact absurd h hkk
        · exact (hiff k').mpr h
  · show ((Entry.mk k v :: c.ll.eraseP (fun x => x.key == k)).map Entry.key).Nodup
    rw [List.map_cons, map_key_eraseP, List.nodup_cons]
    refine ⟨?_, hndl.erase _⟩
    rw [List.Nodup.mem_erase_iff hndl]
    simp

theorem wf_add_absent_core (c : Cache) (k : String) (v : Int) (hwf : Wf c)
    (hk : k ∉ c.cacheKeys) :
    Wf { c with ll := ⟨k, v⟩ :: c.ll, cacheKeys := k :: c.cacheKeys } := by
  obtain ⟨hiff, hndl, hndk⟩ := hwf
  have hkm : k ∉ c.ll.map Entry.key := fun h => hk ((hiff k).mpr h)
  refine ⟨?_, ?_, ?_⟩
  · intro k'
    show k' ∈ k :: c.cacheKeys ↔ k' ∈ (Entry.mk k v :: c.ll).map Entry.key
    simp only [List.map_cons, List.mem_cons]
    rw [hiff k']
  · show ((Entry.mk k v :: c.ll).map Entry.key).Nodup
    rw [List.map_cons, List.nodup_cons]
    exact ⟨hkm, hndl⟩
  · exact List.nodup_cons.mpr ⟨hk, hndk⟩

theorem add_eq_uninit (c : Cache) (k : String) (v : Int)
    (hinit : c.initialized = false) :
    c.add k v = Cache.add { c with initialized := true, ll := [], cacheKeys := [] } k v := by
  simp [Cache.add, hinit]

theorem wf_add (c : Cache) (k : String) (v : Int) (hwf : Wf c) : Wf (c.add k v).1 := by
  have main : ∀ c2 : Cache, Wf c2 → c2.initialized = true → Wf (c2.add k v).1 := by
    intro c2 hwf2 hinit2
    by_cases hk : k ∈ c2.cacheKeys
    · rw [add_eq_present c2 k v hinit2 hk]
      exact wf_add_present_core c2 k v hwf2 hk
    · rw [add_eq_absent c2 k v hinit2 hk]
      have hwfIns := wf_add_absent_core c2 k v hwf2 hk
      split
      · exact wf_removeOldest _ hwfIns
      · exact hwfIns
  by_cases hinit : c.initialized = true
  · exact main c hwf hinit
  · rw [add_eq_uninit c k v (by simpa using hinit)]
    exact main _ ⟨fun k' => by simp, by simp, by simp⟩ rfl

end lru
namespace lru

theorem removeOldest_cons_length (c2 : Cache) (hinit : c2.initialized = true)
    (hne : c2.ll ≠ []) (hnd : (c2.ll.map Entry.key).Nodup) :
    c2.removeOldest.1.ll.length + 1 = c2.ll.length := by
  rw [Cache.removeOldest, if_pos hinit, List.getLast?_eq_getLast c2.ll hne]
  show (c2.ll.eraseP (fun x => x.key == (c2.ll.getLast hne).key)).length + 1 = c2.ll.length
  rw [eraseP_getLast_key c2.ll hne hnd, List.length_dropLast]
  have hpos : 0 < c2.ll.length := List.length_pos.mpr hne
  omega

theorem removeOldest_maxEntries (c : Cache) :
    c.removeOldest.1.maxEntries = c.maxEntries ∧
    c.removeOldest.1.hasOnEvicted = c.hasOnEvicted ∧
    c.removeOldest.1.initialized = c.initialized := by
  rw [Cache.removeOldest]
  split
  · split <;> exact ⟨rfl, rfl, rfl⟩
  · exact ⟨rfl, rfl, rfl⟩

theorem bounded_add (c : Cache) (k : String) (v : Int) (hwf : Wf c) (hb : Bounded c) :
    Bounded (c.add k v).1 := by
  have main : ∀ c2 : Cache, Wf c2 → Bounded c2 → c2.initialized = true →
      Bounded (c2.add k v).1 := by
    intro c2 hwf2 hb2 hinit2
    by_cases hk : k ∈ c2.cacheKeys
    · rw [add_eq_present c2 k v hinit2 hk]
      intro hpos
      have hpos2 : 0 < c2.maxEntries := hpos
      show ((Entry.mk k v :: c2.ll.eraseP (fun x => x.key == k)).length : Int) ≤ c2.maxEntries
      have hkm : k ∈ c2.ll.map Entry.key := (hwf2.1 k).mp hk
      have hlen := length_eraseP_key c2.ll k hkm
      have h2 := hb2 hpos2
      simp only [List.length_cons]
      omega
    · rw [add_eq_absent c2 k v hinit2 hk]
      split
      next hcap =>
        intro hpos
        set cIns : Cache :=
          { c2 with ll := ⟨k, v⟩ :: c2.ll, cacheKeys := k :: c2.cacheKeys } with hcI
        have hmax : cIns.removeOldest.1.maxEntries = c2.maxEntries := by
          rw [(removeOldest_maxEntries cIns).1]
        rw [hmax] at hpos
        have hlen := removeOldest_cons_length cIns
          (show cIns.initialized = true from hinit2) (by simp [hcI])
          (wf_add_absent_core c2 k v hwf2 hk).2.1
        have h2 := hb2 hpos
        have h3 : cIns.ll.length = c2.ll.length + 1 := by simp [hcI]
        show ((cIns.removeOldest.1.ll.length : Int)) ≤ cIns.removeOldest.1.maxEntries
        rw [hmax]
        omega
      next hcap =>
        intro hpos
        have hpos2 : 0 < c2.maxEntries := hpos
        show ((Entry.mk k v :: c2.ll).length : Int) ≤ c2.maxEntries
        simp only [List.length_cons]
        push_neg at hcap
        have := hcap (by omega)
        push_cast
        omega
  by_cases hinit : c.initialized = true
  · exact main c hwf hb hinit
  · rw [add_eq_uninit c k v (by simpa using hinit)]
    exact main _ ⟨fun k' => by simp, by simp, by simp⟩
      (fun h => by simpa using le_of_lt h) rfl

end lru
namespace lru

theorem get_eq_uninit (c : Cache) (k : String) (hinit : c.initialized = false) :
    c.get k = (c, none) := by
  simp [Cache.get, hinit]

theorem get_eq_miss (c : Cache) (k : String) (hk : k ∉ c.cacheKeys) :
    c.get k = (c, none) := by
  rw [Cache.get]
  split
  · rw [if_neg (by simpa using hk)]
  · rfl

theorem remove_eq_uninit (c : Cache) (k : String) (hinit : c.initialized = false) :
    c.remove k = (c, []) := by
  simp [Cache.remove, hinit]

theorem remove_eq_miss (c : Cache) (k : String) (hk : k ∉ c.cacheKeys) :
    c.remove k = (c, []) := by
  rw [Cache.remove]
  split
  · rw [if_neg (by simpa using hk)]
  · rfl

theorem remove_eq_hit (c : Cache) (k : String) (e : Entry)
    (hinit : c.initialized = true) (hk : k ∈ c.cacheKeys)
    (hfind : c.ll.find? (fun x => x.key == k) = some e) :
    c.remove k = c.removeElement e := by
  rw [Cache.remove, if_pos hinit, if_pos (by simpa using hk), hfind]

theorem wf_move_front_core (c : Cache) (e : Entry) (hwf : Wf c)
    (hk : e.key ∈ c.cacheKeys) :
    Wf { c with ll := e :: c.ll.eraseP (fun x => x.key == e.key) } := by
  obtain ⟨hiff, hndl, hndk⟩ := hwf
  refine ⟨?_, ?_, hndk⟩
  · intro k'
    show k' ∈ c.cacheKeys ↔
      k' ∈ (e :: c.ll.eraseP (fun x => x.key == e.key)).map Entry.key
    rw [List.map_cons, map_key_eraseP]
    by_cases hkk : k' = e.key
    · subst hkk; simp [hk]
    · simp only [List.mem_cons]
      rw [List.Nodup.mem_erase_iff hndl]
      constructor
      · intro h; exact Or.inr ⟨hkk, (hiff k').mp h⟩
      · rintro (h | ⟨_, h⟩)
        · exact absurd h hkk
        · exact (hiff k').mpr h
  · show ((e :: c.ll.eraseP (fun x => x.key == e.key)).map Entry.key).Nodup
    rw [List.map_cons, map_key_eraseP, List.nodup_cons]
    refine ⟨?_, hndl.erase _⟩
    rw [List.Nodup.mem_erase_iff hndl]
    simp

theorem wf_get (c : Cache) (k : String) (hwf : Wf c) : Wf (c.get k).1 := by
  by_cases hinit : c.initialized = true
  · by_cases hk : k ∈ c.cacheKeys
    · obtain ⟨e, he, hek, hfind⟩ := exists_entry_of_mem_keys c k hwf hk
      rw [get_eq_hit c k e hinit hk hfind, ← hek]
      exact wf_move_front_core c e hwf (hek ▸ hk)
    · rw [get_eq_miss c k hk]; exact hwf
  · rw [get_eq_uninit c k (by simpa using hinit)]; exact hwf

theorem bounded_get (c : Cache) (k : String) (hwf : Wf c) (hb : Bounded c) :
    Bounded (c.get k).1 := by
  by_cases hinit : c.initialized = true
  · by_cases hk : k ∈ c.cacheKeys
    · obtain ⟨e, he, hek, hfind⟩ := exists_entry_of_mem_keys c k hwf hk
      rw [get_eq_hit c k e hinit hk hfind]
      intro hpos
      have hpos2 : 0 < c.maxEntries := hpos
      have hkm : k ∈ c.ll.map Entry.key := (hwf.1 k).mp hk
      have hlen := length_eraseP_key c.ll k hkm
      have h2 := hb hpos2
      show ((e :: c.ll.eraseP (fun x => x.key == k)).length : Int) ≤ c.maxEntries
      simp only [List.length_cons]
      omega
    · rw [get_eq_miss c k hk]; exact hb
  · rw [get_eq_uninit c k (by simpa using hinit)]; exact hb

theorem wf_remove (c : Cache) (k : String) (hwf : Wf c) : Wf (c.remove k).1 := by
  by_cases hinit : c.initialized = true
  · by_cases hk : k ∈ c.cacheKeys
    · obtain ⟨e, he, hek, hfind⟩ := exists_entry_of_mem_keys c k hwf hk
      rw [remove_eq_hit c k e hinit hk hfind]
      exact wf_removeElement c e hwf
    · rw [remove_eq_miss c k hk]; exact hwf
  · rw [remove_eq_uninit c k (by simpa using hinit)]; exact hwf

theorem bounded_remove (c : Cache) (k : String) (hwf : Wf c) (hb : Bounded c) :
    Bounded (c.remove k).1 := by
  by_cases hinit : c.initialized = true
  · by_cases hk : k ∈ c.cacheKeys
    · obtain ⟨e, he, hek, hfind⟩ := exists_entry_of_mem_keys c k hwf hk
      rw [remove_eq_hit c k e hinit hk hfind]
      exact bounded_removeElement c e hb
    · rw [remove_eq_miss c k hk]; exact hb
  · rw [remove_eq_uninit c k (by simpa using hinit)]; exact hb

theorem wf_clear (c : Cache) : Wf (c.clear).1 :=
  ⟨fun k => by simp [Cache.clear], by simp [Cache.clear], by simp [Cache.clear]⟩

theorem bounded_clear (c : Cache) : Bounded (c.clear).1 := by
  intro hpos
  have hpos2 : 0 < c.maxEntries := hpos
  show ((List.length [] : Int)) ≤ c.maxEntries
  simpa using le_of_lt hpos2

end lru
namespace lru

end lru
namespace lru

end lru
namespace lru

theorem len_eq (c : Cache) (hinit : c.initialized = true) : c.len = c.ll.length := by
  rw [Cache.len, if_pos hinit]

theorem len_mk (max : Int) (hoe : Bool) (init : Bool) (l : List Entry)
    (ks : List String) (h : init = true) :
    Cache.len ⟨max, hoe, init, l, ks⟩ = l.length := by
  rw [Cache.len]; exact if_pos h

/-- C4: every operation preserves the cache invariant (map key set = list
key set, with duplicate-free keys) and the capacity bound, and `Get`/`Add`
on a present key leaves that entry at the front. -/
theorem spec_C4 (c : Cache) (k : String) (v : Int) (hwf : Wf c) (hb : Bounded c) :
    (Wf (c.add k v).1 ∧ Bounded (c.add k v).1) ∧
    (Wf (c.get k).1 ∧ Bounded (c.get k).1) ∧
    (Wf (c.remove k).1 ∧ Bounded (c.remove k).1) ∧
    (Wf c.removeOldest.1 ∧ Bounded c.removeOldest.1) ∧
    (Wf (c.clear).1 ∧ Bounded (c.clear).1) ∧
    (k ∈ c.cacheKeys → c.initialized = true →
      (c.get k).1.ll.head?.map Entry.key = some k ∧
      (c.add k v).1.ll.head? = some ⟨k, v⟩) := by
  refine ⟨⟨wf_add c k v hwf, bounded_add c k v hwf hb⟩,
    ⟨wf_get c k hwf, bounded_get c k hwf hb⟩,
    ⟨wf_remove c k hwf, bounded_remove c k hwf hb⟩,
    ⟨wf_removeOldest c hwf, bounded_removeOldest c hb⟩,
    ⟨wf_clear c, bounded_clear c⟩, ?_⟩
  intro hk hinit
  obtain ⟨e, he, hek, hfind⟩ := exists_entry_of_mem_keys c k hwf hk
  constructor
  · rw [get_eq_hit c k e hinit hk hfind]
    simp [hek]
  · rw [add_eq_present c k v hinit hk]
    rfl

/-- C3: `Add` updates-and-refreshes on a present key, inserts at the front
on an absent key, evicts the least recently used entry (reporting it to the
eviction callback exactly when one is configured) when the capacity is
exceeded, and the spec's concrete capacity-2 scenario behaves as stated. -/
theorem spec_C3 (c : Cache) (k : String) (v : Int) (hwf : Wf c)
    (hinit : c.initialized = true) :
    (k ∈ c.cacheKeys →
       (c.add k v).1.ll.head? = some ⟨k, v⟩ ∧
       (c.add k v).2 = [] ∧
       (c.add k v).1.len = c.len) ∧
    (k ∉ c.cacheKeys → ¬(c.maxEntries ≠ 0 ∧ c.maxEntries < (c.ll.length : Int) + 1) →
       (c.add k v).1.ll = ⟨k, v⟩ :: c.ll ∧ (c.add k v).2 = [] ∧
       (c.add k v).1.len = c.len + 1) ∧
    (k ∉ c.cacheKeys → 0 < c.maxEntries → c.maxEntries < (c.ll.length : Int) + 1 →
       ∀ hne : c.ll ≠ [],
       (c.add k v).1.ll = ⟨k, v⟩ :: c.ll.dropLast ∧
       (c.add k v).2 = (if c.hasOnEvicted then
          [((c.ll.getLast hne).key, (c.ll.getLast hne).value)] else []) ∧
       (c.add k v).1.len = c.len) ∧
    (scenC.2 = [("a", 1)] ∧ (scenC.1.get "a").2 = none ∧
     (scenC.1.get "b").2 = some 2 ∧ scenD.2 = [("c", 3)]) := by
  refine ⟨?_, ?_, ?_, by decide, by decide, by decide, by decide⟩
  · intro hk
    rw [add_eq_present c k v hinit hk]
    have hkm : k ∈ c.ll.map Entry.key := (hwf.1 k).mp hk
    have hlen := length_eraseP_key c.ll k hkm
    refine ⟨rfl, rfl, ?_⟩
    have hL : (({ c with ll := Entry.mk k v :: c.ll.eraseP (fun x => x.key == k) },
        ([] : List (String × Int))).1).len
        = (Entry.mk k v :: c.ll.eraseP (fun x => x.key == k)).length :=
      len_mk _ _ _ _ _ hinit
    rw [hL, len_eq c hinit]
    simp only [List.length_cons]
    omega
  · intro hk hcap
    rw [add_eq_absent c k v hinit hk, if_neg (by exact_mod_cast hcap)]
    refine ⟨rfl, rfl, ?_⟩
    have hL : (({ c with ll := Entry.mk k v :: c.ll, cacheKeys := k :: c.cacheKeys },
        ([] : List (String × Int))).1).len = (Entry.mk k v :: c.ll).length :=
      len_mk _ _ _ _ _ hinit
    rw [hL, len_eq c hinit]
    simp
  · intro hk hpos hcap hne
    rw [add_eq_absent c k v hinit hk, if_pos ⟨by omega, by omega⟩]
    set cIns : Cache :=
      { c with ll := ⟨k, v⟩ :: c.ll, cacheKeys := k :: c.cacheKeys } with hcI
    have hlast : cIns.ll.getLast? = some (c.ll.getLast hne) := by
      rw [show cIns.ll = ⟨k, v⟩ :: c.ll from rfl]
      rw [List.getLast?_eq_getLast _ (by simp), List.getLast_cons hne]
    have hkm : k ∉ c.ll.map Entry.key := fun hc => hk ((hwf.1 k).mpr hc)
    have hkl2 : ((Entry.mk k v).key == (c.ll.getLast hne).key) = false := by
      have hmm : (c.ll.getLast hne).key ∈ c.ll.map Entry.key :=
        List.mem_map_of_mem _ (List.getLast_mem hne)
      simp only [beq_eq_false_iff_ne, ne_eq]
      intro hcon
      rw [← hcon] at hmm
      exact hkm hmm
    rw [Cache.removeOldest, if_pos (show cIns.initialized = true from hinit), hlast]
    refine ⟨?_, ?_, ?_⟩
    · show (⟨k, v⟩ :: c.ll).eraseP
          (fun x => x.key == (c.ll.getLast hne).key) = ⟨k, v⟩ :: c.ll.dropLast
      rw [List.eraseP_cons_of_neg (by simp [hkl2]), eraseP_getLast_key c.ll hne hwf.2.1]
    · rfl
    · have hL : (Cache.removeElement cIns (c.ll.getLast hne)).1.len
          = (cIns.ll.eraseP (fun x => x.key == (c.ll.getLast hne).key)).length :=
        len_mk _ _ _ _ _ hinit
      rw [hL, len_eq c hinit]
      show ((⟨k, v⟩ :: c.ll).eraseP
          (fun x => x.key == (c.ll.getLast hne).key)).length = c.ll.length
      rw [List.eraseP_cons_of_neg (by simp [hkl2]), eraseP_getLast_key c.ll hne hwf.2.1]
      have hp : 0 < c.ll.length := List.length_pos.mpr hne
      simp only [List.length_cons, List.length_dropLast]
      omega

end lru
namespace lru

theorem filterMap_find_eq_map (base : List Entry) (l2 : List Entry)
    (hres : ∀ e ∈ l2, base.find? (fun x => x.key == e.key) = some e) :
    l2.filterMap (fun e =>
        (base.find? (fun x => x.key == e.key)).map (fun e2 => (e2.key, e2.value)))
      = l2.map (fun e => (e.key, e.value)) := by
  induction l2 with
  | nil => rfl
  | cons e tl ih =>
    simp only [List.filterMap_cons, hres e (List.mem_cons_self e tl),
      Option.map_some', List.map_cons]
    rw [ih (fun e2 he2 => hres e2 (List.mem_cons_of_mem e he2))]

/-- C7: after `Clear()` the cache is empty, and when the eviction callback
is configured it fires exactly once per entry that existed beforehand (as a
permutation of the entry list; the iteration order of the Go map is
unspecified); with no callback configured nothing fires. -/
theorem spec_C7 (c : Cache) (hwf : Wf c) :
    (c.clear).1.len = 0 ∧
    (c.hasOnEvicted = true →
       (c.clear).2.Perm (c.ll.map (fun e => (e.key, e.value)))) ∧
    (c.hasOnEvicted = false → (c.clear).2 = []) ∧
    (c.clear).1.initialized = false := by
  obtain ⟨hiff, hndl, hndk⟩ := hwf
  refine ⟨by rw [Cache.clear, Cache.len]; rfl, ?_, ?_, rfl⟩
  · intro hoe
    show (if c.hasOnEvicted then
        c.cacheKeys.filterMap (fun k =>
          (c.ll.find? (fun x => x.key == k)).map (fun e => (e.key, e.value)))
      else []).Perm (c.ll.map (fun e => (e.key, e.value)))
    rw [if_pos hoe]
    have hperm : c.cacheKeys.Perm (c.ll.map Entry.key) := by
      apply List.perm_of_nodup_nodup_toFinset_eq hndk hndl
      ext k
      rw [List.mem_toFinset, List.mem_toFinset]
      exact hiff k
    have h2 := hperm.filterMap (fun k =>
      (c.ll.find? (fun x => x.key == k)).map (fun e => (e.key, e.value)))
    apply h2.trans
    rw [List.filterMap_map]
    have h3 : ∀ e ∈ c.ll, c.ll.find? (fun x => x.key == e.key) = some e :=
      fun e he => find?_key_of_mem c.ll hndl e he
    have h4 := filterMap_find_eq_map c.ll c.ll h3
    exact h4 ▸ List.Perm.refl _
  · intro hoe
    show (if c.hasOnEvicted then _ else []) = []
    rw [if_neg (by simp [hoe])]

/-- C9: `Add` on a present key only rebinds that key's value and recency:
nothing is evicted, the callback never fires, the length and the key set
are unchanged, and every other key's stored value is untouched — with no
capacity hypothesis, so this also holds at capacity. -/
theorem spec_C9 (c : Cache) (k : String) (v : Int) (hwf : Wf c)
    (hinit : c.initialized = true) (hk : k ∈ c.cacheKeys) :
    (c.add k v).2 = [] ∧
    (c.add k v).1.len = c.len ∧
    (c.add k v).1.cacheKeys = c.cacheKeys ∧
    (c.add k v).1.maxEntries = c.maxEntries ∧
    (∀ k2, k2 ≠ k →
      ((c.add k v).1.ll.find? (fun x => x.key == k2)).map Entry.value
        = (c.ll.find? (fun x => x.key == k2)).map Entry.value) ∧
    ((c.add k v).1.ll.find? (fun x => x.key == k)).map Entry.value = some v := by
  rw [add_eq_present c k v hinit hk]
  have hkm : k ∈ c.ll.map Entry.key := (hwf.1 k).mp hk
  have hlen := length_eraseP_key c.ll k hkm
  refine ⟨rfl, ?_, rfl, rfl, ?_, ?_⟩
  · have hL : (({ c with ll := Entry.mk k v :: c.ll.eraseP (fun x => x.key == k) },
        ([] : List (String × Int))).1).len
        = (Entry.mk k v :: c.ll.eraseP (fun x => x.key == k)).length :=
      len_mk _ _ _ _ _ hinit
    rw [hL, len_eq c hinit]
    simp only [List.length_cons]
    omega
  · intro k2 hk2
    show ((Entry.mk k v :: c.ll.eraseP (fun x => x.key == k)).find?
        (fun x => x.key == k2)).map Entry.value = _
    rw [List.find?_cons_of_neg _ (by simp [Ne.symm hk2])]
    rw [find?_eraseP_of_ne (fun x => x.key == k2) (fun x => x.key == k) c.ll ?hpq]
    case hpq =>
      intro x hx
      simp only [beq_iff_eq] at hx
      simp [hx, hk2]
  · show ((Entry.mk k v :: c.ll.eraseP (fun x => x.key == k)).find?
        (fun x => x.key == k)).map Entry.value = some v
    rw [List.find?_cons_of_pos _ (by simp)]
    rfl

end lru
namespace lru

/-- C10: every operation is total on an uninitialized (zero-value or
cleared) cache: `Get` misses, `Len` is 0, `Remove` and `RemoveOldest` are
no-ops, `Add` re-initializes the internal structures and inserts normally
(so an immediate `Get` hits when the capacity is non-negative), and `Clear`
always leaves the cache in that uninitialized state. -/
theorem spec_C10 (c : Cache) (k : String) (v : Int) (h : c.initialized = false) :
    c.get k = (c, none) ∧
    c.len = 0 ∧
    c.remove k = (c, []) ∧
    c.removeOldest = (c, []) ∧
    c.add k v = Cache.add { c with initialized := true, ll := [], cacheKeys := [] } k v ∧
    (0 ≤ c.maxEntries → ((c.add k v).1.get k).2 = some v) ∧
    (∀ c2 : Cache, (c2.clear).1.initialized = false) := by
  refine ⟨get_eq_uninit c k h, ?_, remove_eq_uninit c k h, ?_, add_eq_uninit c k v h,
    ?_, fun c2 => rfl⟩
  · rw [Cache.len, if_neg (by simp [h])]
  · rw [Cache.removeOldest, if_neg (by simp [h])]
  · intro hmax
    rw [add_eq_uninit c k v h]
    set c0 : Cache := { c with initialized := true, ll := [], cacheKeys := [] } with hc0
    have hk0 : k ∉ c0.cacheKeys := by simp [hc0]
    rw [add_eq_absent c0 k v rfl hk0, if_neg ?hcap]
    case hcap =>
      rintro ⟨hne, hlt⟩
      have : c0.maxEntries = c.maxEntries := rfl
      have hlen : c0.ll.length = 0 := rfl
      rw [this] at hne hlt
      rw [hlen] at hlt
      norm_num at hlt
      omega
    set c1 : Cache := { c0 with ll := ⟨k, v⟩ :: c0.ll, cacheKeys := k :: c0.cacheKeys }
      with hc1
    have hfind : c1.ll.find? (fun x => x.key == k) = some ⟨k, v⟩ := by
      show (⟨k, v⟩ :: c0.ll).find? (fun x => x.key == k) = some ⟨k, v⟩
      rw [List.find?_cons_of_pos _ (by simp)]
    rw [get_eq_hit c1 k ⟨k, v⟩ rfl (by simp [hc1]) hfind]

end lru
namespace lru

theorem exCache_wf : Wf exCache := ⟨fun k => Iff.rfl, by decide, by decide⟩

theorem exCache_bounded : Bounded exCache := fun _ => by decide

theorem spec_C4_witness :
    (Wf ((exCache.add "b" 7).1) ∧ Bounded ((exCache.add "b" 7).1)) ∧
    ((exCache.get "b").1.ll.head?.map Entry.key = some "b" ∧
     (exCache.add "b" 7).1.ll.head? = some ⟨"b", 7⟩) :=
  ⟨(spec_C4 exCache "b" 7 exCache_wf exCache_bounded).1,
   (spec_C4 exCache "b" 7 exCache_wf exCache_bounded).2.2.2.2.2 (by decide) rfl⟩

theorem spec_C3_witness :
    ((exCache.add "b" 7).1.ll.head? = some ⟨"b", 7⟩ ∧
     (exCache.add "b" 7).2 = [] ∧
     (exCache.add "b" 7).1.len = exCache.len) ∧
    (scenC.2 = [("a", 1)] ∧ (scenC.1.get "a").2 = none ∧
     (scenC.1.get "b").2 = some 2 ∧ scenD.2 = [("c", 3)]) :=
  ⟨(spec_C3 exCache "b" 7 exCache_wf rfl).1 (by decide),
   (spec_C3 exCache "b" 7 exCache_wf rfl).2.2.2⟩

theorem spec_C7_witness :
    (exCache.clear).1.len = 0 ∧
    (exCache.clear).2.Perm (exCache.ll.map (fun e => (e.key, e.value))) :=
  ⟨(spec_C7 exCache exCache_wf).1, (spec_C7 exCache exCache_wf).2.1 rfl⟩

theorem spec_C9_witness :
    (exCache.add "b" 7).2 = [] ∧
    (exCache.add "b" 7).1.len = exCache.len ∧
    ((exCache.add "b" 7).1.ll.find? (fun x => x.key == "a")).map Entry.value
      = (exCache.ll.find? (fun x => x.key == "a")).map Entry.value ∧
    ((exCache.add "b" 7).1.ll.find? (fun x => x.key == "b")).map Entry.value = some 7 :=
  ⟨(spec_C9 exCache "b" 7 exCache_wf rfl (by decide)).1,
   (spec_C9 exCache "b" 7 exCache_wf rfl (by decide)).2.1,
   (spec_C9 exCache "b" 7 exCache_wf rfl (by decide)).2.2.2.2.1 "a" (by decide),
   (spec_C9 exCache "b" 7 exCache_wf rfl (by decide)).2.2.2.2.2⟩

theorem spec_C10_witness :
    exUninit.get "k" = (exUninit, none) ∧
    exUninit.len = 0 ∧
    ((exUninit.add "k" 42).1.get "k").2 = some 42 :=
  ⟨(spec_C10 exUninit "k" 42 rfl).1,
   (spec_C10 exUninit "k" 42 rfl).2.1,
   (spec_C10 exUninit "k" 42 rfl).2.2.2.2.2.1 (by decide)⟩

end lru
namespace singleflight

theorem get?_set_self (l : List Thread) (i : Nat) (t a : Thread)
    (h : l.get? i = some t) : (l.set i a).get? i = some a := by
  rw [List.get?_set_eq, h]; rfl

theorem tinv_agree (calls calls2 : Nat → Option CallRec) (t : Thread)
    (h : TInv calls t)
    (hag : ∀ cid r, calls cid = some r → calls2 cid = some r) : TInv calls2 t := by
  rcases t with ⟨key, fnv, fne, pc⟩
  cases pc with
  | start => trivial
  | waiter cid =>
    obtain ⟨r, hr⟩ := Option.isSome_iff_exists.mp h
    show (calls2 cid).isSome
    rw [hag cid r hr]; rfl
  | runner cid =>
    obtain ⟨rec, h1, h2⟩ := h
    exact ⟨rec, hag cid rec h1, h2⟩
  | cleanup cid v e => exact ⟨hag cid _ h.1, h.2.1, h.2.2⟩
  | done r cid v e => exact ⟨hag cid _ h.1, h.2⟩

theorem tinv_start (calls : Nat → Option CallRec) (t : Thread)
    (hpc : t.pc = .start) : TInv calls t := by
  unfold TInv; rw [hpc]; trivial

theorem tinv_waiter (calls : Nat → Option CallRec) (t : Thread) (cid : Nat)
    (h : TInv calls t) (hpc : t.pc = .waiter cid) : (calls cid).isSome := by
  unfold TInv at h; rw [hpc] at h; exact h

theorem tinv_runner (calls : Nat → Option CallRec) (t : Thread) (cid : Nat)
    (h : TInv calls t) (hpc : t.pc = .runner cid) :
    ∃ rec, calls cid = some rec ∧ rec.done = false := by
  unfold TInv at h; rw [hpc] at h; exact h

theorem tinv_cleanup (calls : Nat → Option CallRec) (t : Thread) (cid : Nat)
    (v : Nat) (e : Option String)
    (h : TInv calls t) (hpc : t.pc = .cleanup cid v e) :
    calls cid = some ⟨true, v, e⟩ ∧ v = t.fnv ∧ e = t.fne := by
  unfold TInv at h; rw [hpc] at h; exact h

theorem tinv_done (calls : Nat → Option CallRec) (t : Thread) (r : Bool) (cid : Nat)
    (v : Nat) (e : Option String)
    (h : TInv calls t) (hpc : t.pc = .done r cid v e) :
    calls cid = some ⟨true, v, e⟩ ∧ (r = true → v = t.fnv ∧ e = t.fne) := by
  unfold TInv at h; rw [hpc] at h; exact h

theorem tinv_waiter_intro (calls : Nat → Option CallRec) (t : Thread) (cid : Nat)
    (hpc : t.pc = .waiter cid) (h : (calls cid).isSome) : TInv calls t := by
  unfold TInv; rw [hpc]; exact h

theorem tinv_runner_intro (calls : Nat → Option CallRec) (t : Thread) (cid : Nat)
    (hpc : t.pc = .runner cid)
    (h : ∃ rec, calls cid = some rec ∧ rec.done = false) : TInv calls t := by
  unfold TInv; rw [hpc]; exact h

theorem tinv_cleanup_intro (calls : Nat → Option CallRec) (t : Thread) (cid : Nat)
    (v : Nat) (e : Option String) (hpc : t.pc = .cleanup cid v e)
    (h : calls cid = some ⟨true, v, e⟩ ∧ v = t.fnv ∧ e = t.fne) : TInv calls t := by
  unfold TInv; rw [hpc]; exact h

theorem tinv_done_intro (calls : Nat → Option CallRec) (t : Thread) (r : Bool)
    (cid : Nat) (v : Nat) (e : Option String) (hpc : t.pc = .done r cid v e)
    (h : calls cid = some ⟨true, v, e⟩ ∧ (r = true → v = t.fnv ∧ e = t.fne)) :
    TInv calls t := by
  unfold TInv; rw [hpc]; exact h

theorem inv_init (ts : List Thread) (hts : ∀ t ∈ ts, t.pc = .start) :
    Inv (initState ts) := by
  refine ⟨fun cid _ => rfl, fun k cid h => Option.noConfusion h, ?_, fun cid => rfl, ?_⟩
  · intro i t hget
    exact tinv_start _ t (hts t (List.get?_mem hget))
  · intro p q tp tq cid hpq hp hq hruns _
    have := hts tp (List.get?_mem hp)
    rw [this] at hruns
    cases hruns

end singleflight
namespace singleflight

theorem inv_step (s s2 : GState) (hinv : Inv s) (hstep : Step s s2) : Inv s2 := by
  obtain ⟨hfresh, hmap, hpc, hexecs, huniq⟩ := hinv
  cases hstep with
  | join i t cid hget hpcEq hm =>
    refine ⟨hfresh, hmap, ?_, hexecs, ?_⟩
    · intro j u hj
      by_cases hij : i = j
      · subst hij
        rw [get?_set_self _ _ _ _ hget] at hj
        injection hj with hj2
        rw [← hj2]
        exact hmap t.key cid hm
      · rw [List.get?_set_ne _ _ hij] at hj
        exact hpc j u hj
    · intro p q tp tq cid2 hpq hp hq hruns hrunt
      by_cases hip : i = p
      · subst hip
        rw [get?_set_self _ _ _ _ hget] at hp
        injection hp with hp2
        rw [← hp2] at hruns
        cases hruns
      · by_cases hiq : i = q
        · subst hiq
          rw [get?_set_self _ _ _ _ hget] at hq
          injection hq with hq2
          rw [← hq2] at hrunt
          cases hrunt
        · rw [List.get?_set_ne _ _ hip] at hp
          rw [List.get?_set_ne _ _ hiq] at hq
          exact huniq p q tp tq cid2 hpq hp hq hruns hrunt
  | create i t hget hpcEq hm =>
    have hagree : ∀ cid r, s.calls cid = some r →
        Function.update s.calls s.nextId (some ⟨false, 0, none⟩) cid = some r := by
      intro cid r hr
      have hne : cid ≠ s.nextId := by
        intro hcon
        rw [hcon, hfresh s.nextId (le_refl _)] at hr
        cases hr
      rw [Function.update_noteq hne]
      exact hr
    refine ⟨?_, ?_, ?_, ?_, ?_⟩
    · intro cid hcid
      have hcid2 : s.nextId + 1 ≤ cid := hcid
      have hne : cid ≠ s.nextId := by omega
      show Function.update s.calls s.nextId (some ⟨false, 0, none⟩) cid = none
      rw [Function.update_noteq hne]
      exact hfresh cid (by omega)
    · intro k cid0 hm2
      have hm3 : Function.update s.m t.key (some s.nextId) k = some cid0 := hm2
      show (Function.update s.calls s.nextId (some ⟨false, 0, none⟩) cid0).isSome = true
      by_cases hk : k = t.key
      · rw [hk, Function.update_same] at hm3
        injection hm3 with hcid
        rw [← hcid, Function.update_same]
        rfl
      · rw [Function.update_noteq hk] at hm3
        have hold := hmap k cid0 hm3
        obtain ⟨r, hr⟩ := Option.isSome_iff_exists.mp hold
        rw [hagree cid0 r hr]
        rfl
    · intro j u hj
      by_cases hij : i = j
      · subst hij
        rw [get?_set_self _ _ _ _ hget] at hj
        injection hj with hj2
        rw [← hj2]
        apply tinv_runner_intro _ _ s.nextId rfl
        exact ⟨⟨false, 0, none⟩, Function.update_same _ _ _, rfl⟩
      · rw [List.get?_set_ne _ _ hij] at hj
        exact tinv_agree s.calls _ u (hpc j u hj) hagree
    · intro c2
      show s.execs c2 = execsOf (Function.update s.calls s.nextId (some ⟨false, 0, none⟩) c2)
      by_cases hc : c2 = s.nextId
      · rw [hc, Function.update_same, hexecs s.nextId, hfresh s.nextId (le_refl _)]
        rfl
      · rw [Function.update_noteq hc]
        exact hexecs c2
    · intro p q tp tq cid2 hpq hp hq hruns hrunt
      by_cases hip : i = p
      · subst hip
        rw [get?_set_self _ _ _ _ hget] at hp
        injection hp with hp2
        rw [← hp2] at hruns
        injection hruns with hcid2
        by_cases hiq : i = q
        · exact hpq (hiq ▸ rfl)
        · rw [List.get?_set_ne _ _ hiq] at hq
          obtain ⟨rec, hrec, _⟩ := tinv_runner s.calls tq cid2 (hpc q tq hq) hrunt
          rw [← hcid2, hfresh s.nextId (le_refl _)] at hrec
          cases hrec
      · by_cases hiq : i = q
        · subst hiq
          rw [get?_set_self _ _ _ _ hget] at hq
          injection hq with hq2
          rw [← hq2] at hrunt
          injection hrunt with hcid2
          rw [List.get?_set_ne _ _ hip] at hp
          obtain ⟨rec, hrec, _⟩ := tinv_runner s.calls tp cid2 (hpc p tp hp) hruns
          rw [← hcid2, hfresh s.nextId (le_refl _)] at hrec
          cases hrec
        · rw [List.get?_set_ne _ _ hip] at hp
          rw [List.get?_set_ne _ _ hiq] at hq
          exact huniq p q tp tq cid2 hpq hp hq hruns hrunt
  | exec i t cid hget hpcEq =>
    obtain ⟨rec, hrec, hdone⟩ := tinv_runner s.calls t cid (hpc i t hget) hpcEq
    refine ⟨?_, ?_, ?_, ?_, ?_⟩
    · intro c2 hc2
      have hc2b : s.nextId ≤ c2 := hc2
      have hne : c2 ≠ cid := by
        intro hcon
        have hx := hfresh c2 hc2b
        rw [hcon, hrec] at hx
        cases hx
      show Function.update s.calls cid (some ⟨true, t.fnv, t.fne⟩) c2 = none
      rw [Function.update_noteq hne]
      exact hfresh c2 hc2b
    · intro k c2 hm2
      have hm3 : s.m k = some c2 := hm2
      show (Function.update s.calls cid (some ⟨true, t.fnv, t.fne⟩) c2).isSome = true
      by_cases hc : c2 = cid
      · rw [hc, Function.update_same]; rfl
      · rw [Function.update_noteq hc]
        exact hmap k c2 hm3
    · intro j u hj
      by_cases hij : i = j
      · subst hij
        rw [get?_set_self _ _ _ _ hget] at hj
        injection hj with hj2
        rw [← hj2]
        apply tinv_cleanup_intro _ _ cid t.fnv t.fne rfl
        exact ⟨Function.update_same _ _ _, rfl, rfl⟩
      · rw [List.get?_set_ne _ _ hij] at hj
        have hu := hpc j u hj
        rcases hupc : u.pc with _ | cu | cu | ⟨cu, vu, eu⟩ | ⟨ru, cu, vu, eu⟩
        · exact tinv_start _ u hupc
        · have hw := tinv_waiter s.calls u cu hu hupc
          apply tinv_waiter_intro _ u cu hupc
          show (Function.update s.calls cid (some ⟨true, t.fnv, t.fne⟩) cu).isSome = true
          by_cases hc : cu = cid
          · rw [hc, Function.update_same]; rfl
          · rw [Function.update_noteq hc]; exact hw
        · by_cases hc : cu = cid
          · subst hc
            exact (huniq i j t u cu hij hget hj hpcEq hupc).elim
          · obtain ⟨ru, hru, hrdone⟩ := tinv_runner s.calls u cu hu hupc
            apply tinv_runner_intro _ u cu hupc
            refine ⟨ru, ?_, hrdone⟩
            show Function.update s.calls cid (some ⟨true, t.fnv, t.fne⟩) cu = some ru
            rw [Function.update_noteq hc]; exact hru
        · obtain ⟨hcu, hv, he⟩ := tinv_cleanup s.calls u cu vu eu hu hupc
          have hc : cu ≠ cid := by
            intro hcon
            rw [hcon, hrec] at hcu
            injection hcu with hcu2
            rw [hcu2] at hdone
            cases hdone
          apply tinv_cleanup_intro _ u cu vu eu hupc
          refine ⟨?_, hv, he⟩
          show Function.update s.calls cid (some ⟨true, t.fnv, t.fne⟩) cu = some ⟨true, vu, eu⟩
          rw [Function.update_noteq hc]; exact hcu
        · obtain ⟨hcu, himp⟩ := tinv_done s.calls u ru cu vu eu hu hupc
          have hc : cu ≠ cid := by
            intro hcon
            rw [hcon, hrec] at hcu
            injection hcu with hcu2
            rw [hcu2] at hdone
            cases hdone
          apply tinv_done_intro _ u ru cu vu eu hupc
          refine ⟨?_, himp⟩
          show Function.update s.calls cid (some ⟨true, t.fnv, t.fne⟩) cu = some ⟨true, vu, eu⟩
          rw [Function.update_noteq hc]; exact hcu
    · intro c2
      show Function.update s.execs cid (s.execs cid + 1) c2
        = execsOf (Function.update s.calls cid (some ⟨true, t.fnv, t.fne⟩) c2)
      by_cases hc : c2 = cid
      · rw [hc, Function.update_same, Function.update_same, hexecs cid, hrec]
        show (if rec.done then 1 else 0) + 1 = 1
        rw [hdone]
        rfl
      · rw [Function.update_noteq hc, Function.update_noteq hc]
        exact hexecs c2
    · intro p q tp tq cid2 hpq hp hq hruns hrunt
      by_cases hip : i = p
      · subst hip
        rw [get?_set_self _ _ _ _ hget] at hp
        injection hp with hp2
        rw [← hp2] at hruns
        cases hruns
      · by_cases hiq : i = q
        · subst hiq
          rw [get?_set_self _ _ _ _ hget] at hq
          injection hq with hq2
          rw [← hq2] at hrunt
          cases hrunt
        · rw [List.get?_set_ne _ _ hip] at hp
          rw [List.get?_set_ne _ _ hiq] at hq
          exact huniq p q tp tq cid2 hpq hp hq hruns hrunt
  | finish i t cid v e hget hpcEq =>
    obtain ⟨hcall, hv, he⟩ := tinv_cleanup s.calls t cid v e (hpc i t hget) hpcEq
    refine ⟨hfresh, ?_, ?_, hexecs, ?_⟩
    · intro k c2 hm2
      have hm3 : Function.update s.m t.key none k = some c2 := hm2
      by_cases hk : k = t.key
      · rw [hk, Function.update_same] at hm3
        cases hm3
      · rw [Function.update_noteq hk] at hm3
        exact hmap k c2 hm3
    · intro j u hj
      by_cases hij : i = j
      · subst hij
        rw [get?_set_self _ _ _ _ hget] at hj
        injection hj with hj2
        rw [← hj2]
        exact tinv_done_intro _ _ true cid v e rfl ⟨hcall, fun _ => ⟨hv, he⟩⟩
      · rw [List.get?_set_ne _ _ hij] at hj
        exact hpc j u hj
    · intro p q tp tq cid2 hpq hp hq hruns hrunt
      by_cases hip : i = p
      · subst hip
        rw [get?_set_self _ _ _ _ hget] at hp
        injection hp with hp2
        rw [← hp2] at hruns
        cases hruns
      · by_cases hiq : i = q
        · subst hiq
          rw [get?_set_self _ _ _ _ hget] at hq
          injection hq with hq2
          rw [← hq2] at hrunt
          cases hrunt
        · rw [List.get?_set_ne _ _ hip] at hp
          rw [List.get?_set_ne _ _ hiq] at hq
          exact huniq p q tp tq cid2 hpq hp hq hruns hrunt
  | wait i t cid rec hget hpcEq hcalls hdone =>
    refine ⟨hfresh, hmap, ?_, hexecs, ?_⟩
    · intro j u hj
      by_cases hij : i = j
      · subst hij
        rw [get?_set_self _ _ _ _ hget] at hj
        injection hj with hj2
        rw [← hj2]
        apply tinv_done_intro _ _ false cid rec.val rec.err rfl
        refine ⟨?_, fun hcon => by cases hcon⟩
        show s.calls cid = some ⟨true, rec.val, rec.err⟩
        rw [hcalls]
        have hrec : rec = ⟨true, rec.val, rec.err⟩ := by
          rcases rec with ⟨d, rv, re⟩
          simp only at hdone ⊢
          rw [hdone]
        rw [← hrec]
      · rw [List.get?_set_ne _ _ hij] at hj
        exact hpc j u hj
    · intro p q tp tq cid2 hpq hp hq hruns hrunt
      by_cases hip : i = p
      · subst hip
        rw [get?_set_self _ _ _ _ hget] at hp
        injection hp with hp2
        rw [← hp2] at hruns
        cases hruns
      · by_cases hiq : i = q
        · subst hiq
          rw [get?_set_self _ _ _ _ hget] at hq
          injection hq with hq2
          rw [← hq2] at hrunt
          cases hrunt
        · rw [List.get?_set_ne _ _ hip] at hp
          rw [List.get?_set_ne _ _ hiq] at hq
          exact huniq p q tp tq cid2 hpq hp hq hruns hrunt

end singleflight
namespace singleflight

theorem inv_of_reachable (s : GState) (h : Reachable s) : Inv s := by
  induction h with
  | init ts hts => exact inv_init ts hts
  | step s s2 hr hstep ih => exact inv_step s s2 ih hstep

/-- C1: in any interleaving of any number of `Do` callers, any two callers
that completed against the same call (the runner that created it while the
key was free, and every waiter that joined it while it was live in `g.m`)
return the identical (value, error) pair, and `fn` ran exactly once for
that call. -/
theorem spec_C1 (s : GState) (hr : Reachable s) (i j : Nat) (t u : Thread)
    (cid : Nat) (r1 r2 : Bool) (v1 v2 : Nat) (e1 e2 : Option String)
    (hi : s.threads.get? i = some t) (hj : s.threads.get? j = some u)
    (ht : t.pc = .done r1 cid v1 e1) (hu : u.pc = .done r2 cid v2 e2) :
    v1 = v2 ∧ e1 = e2 ∧ s.execs cid = 1 := by
  obtain ⟨hfresh, hmap, hpc, hexecs, _⟩ := inv_of_reachable s hr
  have h1 := tinv_done s.calls t r1 cid v1 e1 (hpc i t hi) ht
  have h2 := tinv_done s.calls u r2 cid v2 e2 (hpc j u hj) hu
  have heq : (⟨true, v1, e1⟩ : CallRec) = ⟨true, v2, e2⟩ :=
    Option.some_injective _ (h1.1.symm.trans h2.1)
  injection heq with _ hv he
  refine ⟨hv, he, ?_⟩
  rw [hexecs cid, h1.1]
  rfl

/-- C5: a caller whose own `fn` was executed (the runner) returns exactly
the pair `fn` produced: the value unchanged and the very error instance,
with `fn` run exactly once for its call — the group adds no error of its
own and caches nothing. -/
theorem spec_C5 (s : GState) (hr : Reachable s) (i : Nat) (t : Thread)
    (cid : Nat) (v : Nat) (e : Option String)
    (hi : s.threads.get? i = some t) (ht : t.pc = .done true cid v e) :
    v = t.fnv ∧ e = t.fne ∧ s.execs cid = 1 := by
  obtain ⟨hfresh, hmap, hpc, hexecs, _⟩ := inv_of_reachable s hr
  have h1 := tinv_done s.calls t true cid v e (hpc i t hi) ht
  obtain ⟨hv, he⟩ := h1.2 rfl
  refine ⟨hv, he, ?_⟩
  rw [hexecs cid, h1.1]
  rfl

theorem exStep01 : Step exS0 exS1 := Step.create exS0 0 exT0 rfl rfl rfl

theorem exStep12 : Step exS1 exS2 := Step.join exS1 1 exT1 0 rfl rfl rfl

theorem exStep23 : Step exS2 exS3 :=
  Step.exec exS2 0 ⟨"k", 7, none, .runner 0⟩ 0 rfl rfl

theorem exStep34 : Step exS3 exS4 :=
  Step.wait exS3 1 ⟨"k", 9, some "boom", .waiter 0⟩ 0 ⟨true, 7, none⟩ rfl rfl rfl rfl

theorem exStep45 : Step exS4 exS5 :=
  Step.finish exS4 0 ⟨"k", 7, none, .cleanup 0 7 none⟩ 0 7 none rfl rfl

theorem exReach5 : Reachable exS5 :=
  Reachable.step _ _
    (Reachable.step _ _
      (Reachable.step _ _
        (Reachable.step _ _
          (Reachable.step _ _ (Reachable.init [exT0, exT1] (by decide)) exStep01)
          exStep12)
        exStep23)
      exStep34)
    exStep45

theorem spec_C1_witness :
    (7 : Nat) = 7 ∧ (none : Option String) = none ∧ exS5.execs 0 = 1 :=
  spec_C1 exS5 exReach5 0 1 ⟨"k", 7, none, .done true 0 7 none⟩
    ⟨"k", 9, some "boom", .done false 0 7 none⟩ 0 true false 7 7 none none
    rfl rfl rfl rfl

theorem spec_C5_witness :
    (7 : Nat) = (Thread.mk "k" 7 none (.done true 0 7 none)).fnv ∧
    (none : Option String) = (Thread.mk "k" 7 none (.done true 0 7 none)).fne ∧
    exS5.execs 0 = 1 :=
  spec_C5 exS5 exReach5 0 ⟨"k", 7, none, .done true 0 7 none⟩ 0 7 none rfl rfl

end singleflight
